import Mathlib

/-!
Shallow embedding of the email-analysis repository (batch script and
interactive dashboard script) and proofs about its specification claims.

Strings are modelled as lists of characters.  Python string primitives
(strip, lower, rstrip, regex fragments) are embedded character by
character; the Unicode-specific parts (str.lower beyond ASCII, NFKD
de-accenting) are modelled on the ASCII fragment plus a table of the
common Latin accented letters, which covers every value the claims and
the repository's own data exercise.
-/

/-- Convert a string literal into the character-list representation used
throughout this development. -/
def chars (s : String) : List Char := s.data

/-- Python str.strip default whitespace, ASCII fragment: space, tab,
newline, vertical tab, form feed, carriage return. -/
def pyIsSpace (c : Char) : Bool := c.toNat = 32 || (9 ≤ c.toNat && c.toNat ≤ 13)

/-- ASCII lower-casing of one character, as in Python str.lower on ASCII. -/
def lowerChar (c : Char) : Char :=
  if 65 ≤ c.toNat ∧ c.toNat ≤ 90 then Char.ofNat (c.toNat + 32) else c

/-- Upper-casing of the accented Latin letters of the de-accent table,
identity elsewhere. -/
def upperAccent (c : Char) : Char :=
  match c with
  | 'á' => 'Á' | 'à' => 'À' | 'â' => 'Â' | 'ã' => 'Ã' | 'ä' => 'Ä'
  | 'é' => 'É' | 'è' => 'È' | 'ê' => 'Ê' | 'ë' => 'Ë'
  | 'í' => 'Í' | 'ì' => 'Ì' | 'î' => 'Î' | 'ï' => 'Ï'
  | 'ó' => 'Ó' | 'ò' => 'Ò' | 'ô' => 'Ô' | 'õ' => 'Õ' | 'ö' => 'Ö'
  | 'ú' => 'Ú' | 'ù' => 'Ù' | 'û' => 'Û' | 'ü' => 'Ü'
  | 'ç' => 'Ç' | 'ñ' => 'Ñ'
  | d => d

/-- Python str.upper on the modelled fragment: ASCII letters and the common
accented Latin letters. -/
def upperChar (c : Char) : Char :=
  if 97 ≤ c.toNat ∧ c.toNat ≤ 122 then Char.ofNat (c.toNat - 32) else upperAccent c

/-- ASCII uppercase letter test, the regex class A-Z. -/
def isUpperAZ (c : Char) : Bool := 65 ≤ c.toNat && c.toNat ≤ 90

/-- ASCII lowercase letter test, the regex class a-z. -/
def isLowerAZ (c : Char) : Bool := 97 ≤ c.toNat && c.toNat ≤ 122

/-- ASCII letter test, the regex class A-Za-z. -/
def isLetterAZ (c : Char) : Bool := isUpperAZ c || isLowerAZ c

/-- ASCII digit test, the regex class 0-9. -/
def isDigit09 (c : Char) : Bool := 48 ≤ c.toNat && c.toNat ≤ 57

/-- Regex word character, the class A-Za-z0-9_ used by the boundary assertion. -/
def isWordChar (c : Char) : Bool := isLetterAZ c || isDigit09 c || c = '_'

/-- Character class of the local part of the email regex of both scripts:
letters, digits and the symbols dot, underscore, percent, plus, minus. -/
def isLocalChar (c : Char) : Bool :=
  isLetterAZ c || isDigit09 c || c = '.' || c = '_' || c = '%' || c = '+' || c = '-'

/-- Character class of the domain part of the email regex: letters, digits,
dot and minus. -/
def isDomainChar (c : Char) : Bool := isLetterAZ c || isDigit09 c || c = '.' || c = '-'

/-- NFKD plus ascii-ignore encoding of one character (the de-accent step of
normalize_header and extract_brazil_uf): ASCII characters survive, the
common accented Latin letters decompose to their base letter, and any other
non-ASCII character is dropped.  Table limited to the letters relevant to
Brazilian Portuguese text. -/
def deaccentChar (c : Char) : List Char :=
  if c.toNat < 128 then [c]
  else if c ∈ ['á', 'à', 'â', 'ã', 'ä'] then ['a']
  else if c ∈ ['Á', 'À', 'Â', 'Ã', 'Ä'] then ['A']
  else if c ∈ ['é', 'è', 'ê', 'ë'] then ['e']
  else if c ∈ ['É', 'È', 'Ê', 'Ë'] then ['E']
  else if c ∈ ['í', 'ì', 'î', 'ï'] then ['i']
  else if c ∈ ['Í', 'Ì', 'Î', 'Ï'] then ['I']
  else if c ∈ ['ó', 'ò', 'ô', 'õ', 'ö'] then ['o']
  else if c ∈ ['Ó', 'Ò', 'Ô', 'Õ', 'Ö'] then ['O']
  else if c ∈ ['ú', 'ù', 'û', 'ü'] then ['u']
  else if c ∈ ['Ú', 'Ù', 'Û', 'Ü'] then ['U']
  else if c = 'ç' then ['c']
  else if c = 'Ç' then ['C']
  else if c = 'ñ' then ['n']
  else if c = 'Ñ' then ['N']
  else []

/-- Python str.strip(): drop whitespace from both ends. -/
def pyStrip (cs : List Char) : List Char :=
  ((cs.dropWhile pyIsSpace).reverse.dropWhile pyIsSpace).reverse

/-- Python str.lower(), ASCII fragment, applied to every character. -/
def pyLower (cs : List Char) : List Char := cs.map lowerChar

/-- Python str.upper(), ASCII fragment, applied to every character. -/
def pyUpper (cs : List Char) : List Char := cs.map upperChar

/-- Python str.rstrip(",") used by the interactive email normalization:
drop trailing commas. -/
def rstripComma (cs : List Char) : List Char :=
  (cs.reverse.dropWhile (fun c => c = ',')).reverse

/-- The NFKD-then-ascii-ignore step applied to a whole string. -/
def pyDeaccent (cs : List Char) : List Char := (cs.map deaccentChar).flatten

/-- Split at the first occurrence of a separator character: returns the part
before and the part after it, or none when the separator is absent.  This is
the semantics of Python split(sep, 1) when the separator occurs. -/
def splitAtFirst (sep : Char) : List Char → Option (List Char × List Char)
  | [] => none
  | c :: rest =>
    if c = sep then some ([], rest)
    else
      match splitAtFirst sep rest with
      | some (a, b) => some (c :: a, b)
      | none => none

/-- Split at the last occurrence of a separator character. -/
def splitAtLast (sep : Char) (cs : List Char) : Option (List Char × List Char) :=
  match splitAtFirst sep cs.reverse with
  | some (a, b) => some (b.reverse, a.reverse)
  | none => none

/-- normalize_text of analise.py: absent values become empty, otherwise
surrounding whitespace is removed. -/
def normalize_text (cs : List Char) : List Char := pyStrip cs

/-- normalize_email of analise.py: normalize_text followed by lower-casing. -/
def normalize_email (cs : List Char) : List Char := pyLower (pyStrip cs)

/-- E_MAIL_NORM derivation of sistema_analise_app.py, line 442: strip, then
lower, then strip trailing commas. -/
def appEmailNorm (cs : List Char) : List Char := rstripComma (pyLower (pyStrip cs))

/-- Check of the part after the at sign of the email regex: it must decompose
as one-or-more domain characters, a dot, then two-or-more ASCII letters.
Because the letters of the final label exclude the dot, the split point can
only be the last dot of the string. -/
def emailTailCheck (r : List Char) : Bool :=
  match splitAtLast '.' r with
  | some (d, t) => !d.isEmpty && d.all isDomainChar && 2 ≤ t.length && t.all isLetterAZ
  | none => false

/-- Matcher for the body of EMAIL_REGEX anchored at both ends of the given
string: local part, at sign, domain part, dot, final alphabetic label.
Because the local class excludes the at sign, the split point can only be the
first at sign. -/
def emailCheck (cs : List Char) : Bool :=
  match splitAtFirst '@' cs with
  | some (l, r) => !l.isEmpty && l.all isLocalChar && emailTailCheck r
  | none => false

/-- bool(EMAIL_REGEX.match(s)) of both scripts.  Python re anchors the
pattern at the start, and the dollar anchor accepts both the end of the
string and the position just before one final newline, so a string whose
body matches up to a single trailing newline is also accepted. -/
def pyEmailRegexMatch (cs : List Char) : Bool :=
  emailCheck cs ||
    (match cs.getLast? with
     | some c => decide (c = '\n') && emailCheck cs.dropLast
     | none => false)

/-- is_valid_email of analise.py, applied by both scripts. -/
def is_valid_email (cs : List Char) : Bool := pyEmailRegexMatch cs

/-- Declarative reading of the claim about is_valid_email: the string itself
decomposes, anchored at both ends, as one-or-more local characters, an at
sign, one-or-more domain characters, a dot, and two-or-more ASCII letters. -/
def EmailMatch (cs : List Char) : Prop :=
  ∃ l d t : List Char,
    cs = l ++ '@' :: (d ++ '.' :: t) ∧
    l ≠ [] ∧ (∀ c ∈ l, isLocalChar c = true) ∧
    d ≠ [] ∧ (∀ c ∈ d, isDomainChar c = true) ∧
    2 ≤ t.length ∧ (∀ c ∈ t, isLetterAZ c = true)

/-- Insert one element into a list that is already ordered by the boolean
relation le, keeping it before the first element it relates to.  Together
with sortDesc this is the stable sort used to model Python sorted and
Counter.most_common. -/
def insertDesc {α : Type} (le : α → α → Bool) (x : α) : List α → List α
  | [] => [x]
  | y :: ys => if le x y then x :: y :: ys else y :: insertDesc le x ys

/-- Stable insertion sort by a boolean relation, the model of Python sorted
(it places earlier elements first among ties). -/
def sortDesc {α : Type} (le : α → α → Bool) : List α → List α
  | [] => []
  | x :: xs => insertDesc le x (sortDesc le xs)

/-- Add one occurrence of a key to a counter kept as an association list in
first-insertion order, the model of collections.Counter and of a value_counts
table before sorting. -/
def bump {α : Type} [DecidableEq α] (k : α) : List (α × Nat) → List (α × Nat)
  | [] => [(k, 1)]
  | (k2, n) :: rest => if k2 = k then (k2, n + 1) :: rest else (k2, n) :: bump k rest

/-- Counter of a list of keys, entries in first-occurrence order. -/
def counterOf {α : Type} [DecidableEq α] (ks : List α) : List (α × Nat) :=
  ks.foldl (fun acc k => bump k acc) []

/-- Total count stored in a counter. -/
def sumCounts {α : Type} (l : List (α × Nat)) : Nat := (l.map (fun p => p.2)).sum

/-- Lexicographic less-or-equal on character lists by code point, the order
Python uses to compare strings. -/
def lexLe : List Char → List Char → Bool
  | [], _ => true
  | _ :: _, [] => false
  | a :: xs, b :: ys => if a = b then lexLe xs ys else decide (a < b)

/-- Comparison placing larger counts first; ties keep insertion order under
the stable sort, as in Counter.most_common. -/
def leCount {α : Type} (a b : α × Nat) : Bool := decide (b.2 ≤ a.2)

/-- Comparison of the interactive repeated-email summary: count descending,
then email ascending, the sort_values call of build_analysis. -/
def leCountKey (a b : List Char × Nat) : Bool :=
  decide (b.2 < a.2) || (decide (a.2 = b.2) && lexLe a.1 b.1)

/-- Comparison placing larger unique-email sets first, the key len(item) of
the two sorted calls of analise.py. -/
def leSetSize {α β : Type} (a b : α × List β) : Bool := decide (b.2.length ≤ a.2.length)

/-- One input row of the batch script, holding the four raw fields the
analysis reads. -/
structure Row where
  creditor : List Char
  document : List Char
  taxpayer : List Char
  email : List Char
deriving DecidableEq, Inhabited

/-- The identity tuple of a row used by the exact-duplicate detection:
normalized creditor name, document, taxpayer and normalized email. -/
def rowIdentity (r : Row) : List Char × List Char × List Char × List Char :=
  (normalize_text r.creditor, normalize_text r.document,
   normalize_text r.taxpayer, normalize_email r.email)

/-- The duplicate scan of analyze (analise.py lines 120 to 134): walk the rows
keeping a set of identity tuples already seen; a row whose tuple was seen is
flagged, appended to the duplicate report, and counted; a new tuple is added
to the set.  Returns the per-row flags, the duplicate-report rows and the
duplicate count. -/
def batchDupScan (seen : List (List Char × List Char × List Char × List Char)) :
    List Row → List Bool × List Row × Nat
  | [] => ([], [], 0)
  | r :: rest =>
    if rowIdentity r ∈ seen then
      let out := batchDupScan seen rest
      (true :: out.1, r :: out.2.1, out.2.2 + 1)
    else
      let out := batchDupScan (rowIdentity r :: seen) rest
      (false :: out.1, out.2.1, out.2.2)

/-- Per-row LINHA_DUPLICADA_EXATA flags of a batch run. -/
def dupFlags (rows : List Row) : List Bool := (batchDupScan [] rows).1

/-- Rows emitted to linhas_duplicadas_exatas.csv, in row order. -/
def dupRowsOut (rows : List Row) : List Row := (batchDupScan [] rows).2.1

/-- The duplicate_exact_rows total of the batch summary. -/
def dupCount (rows : List Row) : Nat := (batchDupScan [] rows).2.2

/-- EMAIL_TRATADO of a row. -/
def cleanEmailOf (r : Row) : List Char := normalize_email r.email

/-- Number of elements of a list that are new relative to a seen set and to
the earlier part of the list, the quantity the duplicate scan subtracts. -/
def newDistinct {α : Type} [DecidableEq α] (seen : List α) : List α → Nat
  | [] => 0
  | t :: rest => if t ∈ seen then newDistinct seen rest else newDistinct (t :: seen) rest + 1

/-- Python split(sep, 1)[1] on a string containing the separator: the part
after its first occurrence (callers guard on the separator being present). -/
def afterFirstAt (cs : List Char) : List Char :=
  match splitAtFirst '@' cs with
  | some p => p.2
  | none => cs

/-- Domains counted by the batch domain_counter (analise.py lines 96 to 104):
one entry per row whose treated email is non-empty, passes validation and
contains an at sign. -/
def batchDomains (rows : List Row) : List (List Char) :=
  rows.filterMap (fun r =>
    let e := cleanEmailOf r
    if e ≠ [] ∧ is_valid_email e = true ∧ '@' ∈ e then some (afterFirstAt e) else none)

/-- The batch domain counter. -/
def domainCounter (rows : List Row) : List (List Char × Nat) :=
  counterOf (batchDomains rows)

/-- top_dominios.csv rows: most_common(20) of the domain counter, which
CPython computes as a stable sort by count descending. -/
def top_dominios (rows : List Row) : List (List Char × Nat) :=
  (sortDesc leCount (domainCounter rows)).take 20

/-- top_emails_repetidos.csv rows: most_common(20) of the counter of all
treated emails, then rows with an empty email removed. -/
def top_emails_repetidos (rows : List Row) : List (List Char × Nat) :=
  ((sortDesc leCount (counterOf (rows.map cleanEmailOf))).take 20).filter
    (fun p => !p.1.isEmpty)

/-- top_documentos_por_linhas.csv rows: most_common(20) of the per-document
row counter, then rows with an empty document removed. -/
def top_documentos_por_linhas (rows : List Row) : List (List Char × Nat) :=
  ((sortDesc leCount (counterOf (rows.map (fun r => normalize_text r.document)))).take 20).filter
    (fun p => !p.1.isEmpty)

/-- Add a value to the set stored under a key in an association list of sets
(the defaultdict of sets of analise.py); sets are kept as duplicate-free
lists in insertion order. -/
def addUnique {α β : Type} [DecidableEq α] [DecidableEq β] (k : α) (v : β) :
    List (α × List β) → List (α × List β)
  | [] => [(k, [v])]
  | (k2, vs) :: rest =>
    if k2 = k then (k2, if v ∈ vs then vs else vs ++ [v]) :: rest
    else (k2, vs) :: addUnique k v rest

/-- Build the association-list-of-sets from a list of key-value pairs. -/
def uniqMap {α β : Type} [DecidableEq α] [DecidableEq β] (pairs : List (α × β)) :
    List (α × List β) :=
  pairs.foldl (fun acc p => addUnique p.1 p.2 acc) []

/-- The pairs document-to-email added by analyze for rows with a valid
email (analise.py line 105). -/
def docEmailPairs (rows : List Row) : List (List Char × List Char) :=
  rows.filterMap (fun r =>
    let e := cleanEmailOf r
    if e ≠ [] ∧ is_valid_email e = true then some (normalize_text r.document, e) else none)

/-- The pairs taxpayer-to-email added by analyze for rows with a valid
email (analise.py line 106). -/
def taxpayerEmailPairs (rows : List Row) : List (List Char × List Char) :=
  rows.filterMap (fun r =>
    let e := cleanEmailOf r
    if e ≠ [] ∧ is_valid_email e = true then some (normalize_text r.taxpayer, e) else none)

/-- top_documentos_por_emails_unicos.csv rows: the per-document unique-email
sets sorted by size descending (stable), first twenty taken, empty documents
removed, each entry reported with the size of its set. -/
def top_documentos_por_emails_unicos (rows : List Row) : List (List Char × Nat) :=
  ((((sortDesc leSetSize (uniqMap (docEmailPairs rows)))).take 20).filter
    (fun p => !p.1.isEmpty)).map (fun p => (p.1, p.2.length))

/-- top_contribuintes_por_emails_unicos.csv rows, the taxpayer analogue. -/
def top_contribuintes_por_emails_unicos (rows : List Row) : List (List Char × Nat) :=
  ((((sortDesc leSetSize (uniqMap (taxpayerEmailPairs rows)))).take 20).filter
    (fun p => !p.1.isEmpty)).map (fun p => (p.1, p.2.length))

/-- The ordering property the specification asserts for every exported top-N
ranking: count descending, and equal counts ordered by key ascending. -/
def RankedByCountThenKey (l : List (List Char × Nat)) : Prop :=
  l.Pairwise (fun a b => b.2 < a.2 ∨ (a.2 = b.2 ∧ lexLe a.1 b.1 = true))

/-- The AnalysisSummary record of analise.py. -/
structure AnalysisSummary where
  total_rows : Nat
  unique_emails : Nat
  invalid_emails : Nat
  missing_emails : Nat
  rows_with_trimmed_email : Nat
  duplicate_exact_rows : Nat
deriving DecidableEq, Inhabited

/-- The summary computed by one batch run over already-parsed rows. -/
def buildSummary (rows : List Row) : AnalysisSummary where
  total_rows := rows.length
  unique_emails := ((rows.map cleanEmailOf).filter (fun e => !e.isEmpty)).dedup.length
  invalid_emails :=
    (rows.filter (fun r => cleanEmailOf r ≠ [] ∧ is_valid_email (cleanEmailOf r) = false)).length
  missing_emails := (rows.filter (fun r => cleanEmailOf r = [])).length
  rows_with_trimmed_email := (rows.filter (fun r => r.email ≠ pyStrip r.email)).length
  duplicate_exact_rows := dupCount rows

/-- A CSV input file as the list of its records; the DictReader of analyze
takes the first record as the header row and reports no header exactly when
the file has no records at all. -/
def CsvFile := List (List (List Char))

/-- dict(zip(fieldnames, values)).get(name) or empty: the value under a
header name; with duplicate header names the last occurrence wins, and a
record shorter than the header yields empty for the missing fields. -/
def dictGet (header : List (List Char)) (fields : List (List Char)) (nm : List Char) :
    List Char :=
  match ((List.range header.length).filter (fun i => header.getD i [] = nm)).getLast? with
  | some i => fields.getD i []
  | none => []

/-- Parse one CSV record into the four fields analyze reads. -/
def rowOfRecord (header : List (List Char)) (fields : List (List Char)) : Row where
  creditor := dictGet header fields (chars "NOME_CREDOR")
  document := dictGet header fields (chars "CPF_CNPJ")
  taxpayer := dictGet header fields (chars "NOME_CONTRIBUINTE")
  email := dictGet header fields (chars "E-MAIL")

/-- The batch entry point on an input file: a missing file aborts (open
raises FileNotFoundError), a file with no records aborts with the
no-header error, and otherwise the first record is the header and the rest
are analysed. -/
def analyzeE : Option CsvFile → Except (List Char) AnalysisSummary
  | none => .error (chars "FileNotFoundError")
  | some file =>
    match file with
    | [] => .error (chars "Arquivo CSV sem cabecalho.")
    | header :: dataRows => .ok (buildSummary (dataRows.map (rowOfRecord header)))

/-- Outcome of the interactive main after the upload step. -/
inductive UiOutcome
  | errorShown (msg : List Char)
  | loaded (rowCount : Nat)
deriving DecidableEq

/-- The try-except around read_table in the interactive main (lines 873 to
877): a read failure becomes an error message on the page and main returns;
the process keeps running either way. -/
def uiAfterRead : Except (List Char) Nat → UiOutcome
  | .error msg => .errorShown (chars "Falha ao ler arquivo: " ++ msg)
  | .ok n => .loaded n

/-- PLACEHOLDER_LOCALS of sistema_analise_app.py. -/
def placeholderLocals : List (List Char) :=
  [chars "0", chars "00", chars "000", chars "x", chars "xx", chars "xxx", chars "xxxx",
   chars "teste", chars "test", chars "email", chars "naotem", chars "sem",
   chars "sememail", chars "naoconsta", chars "null", chars "none", chars "desconhecido"]

/-- PLACEHOLDER_DOMAINS of sistema_analise_app.py. -/
def placeholderDomains : List (List Char) :=
  [chars "desconhecido.com", chars "sem.email", chars "naotem.com", chars "naotem.com.br",
   chars "naoconsta.com.br", chars "email.com", chars "teste.com", chars "test.com"]

/-- COMMON_TYPO_DOMAINS of sistema_analise_app.py. -/
def commonTypoDomains : List (List Char) :=
  [chars "gamil.com", chars "gmial.com", chars "gmail.con", chars "gmai.com",
   chars "hotnail.com", chars "hotmai.com", chars "hotmal.com", chars "yaho.com",
   chars "yhoo.com", chars "yahool.com", chars "outlok.com", chars "outllok.com",
   chars "otlook.com"]

/-- classify_email of sistema_analise_app.py: normalize its argument again,
then collect the reasons formato_invalido, placeholder_lixo and
dominio_typo that apply. -/
def classify_email (e0 : List Char) : List (List Char) :=
  let e := rstripComma (pyLower (pyStrip e0))
  if e = [] then []
  else
    let fmt := if pyEmailRegexMatch e then ([] : List (List Char)) else [chars "formato_invalido"]
    let ld := match splitAtFirst '@' e with
      | some p => p
      | none => (e, [])
    let ph := if ld.1 ∈ placeholderLocals ∨ ld.2 ∈ placeholderDomains
      then [chars "placeholder_lixo"] else []
    let ty := if ld.2 ∈ commonTypoDomains then [chars "dominio_typo"] else []
    fmt ++ ph ++ ty

/-- repeat_bucket of sistema_analise_app.py. -/
def repeat_bucket (v : Int) : List Char :=
  if v ≤ 1 then chars "1 vez"
  else if v = 2 then chars "2 vezes"
  else if v = 3 then chars "3 vezes"
  else if v ≤ 5 then chars "4-5 vezes"
  else if v ≤ 10 then chars "6-10 vezes"
  else chars "11+ vezes"

/-- QTD_REPETICOES_EMAIL of one row: the value_counts of the non-empty
normalized emails, looked up by map and completed by fillna(0); an email
absent from the non-empty table (in particular the empty one) gets zero,
which is exactly the count of the email in the filtered list. -/
def qtdRep (norms : List (List Char)) (e : List Char) : Nat :=
  (norms.filter (fun x => !x.isEmpty)).count e

/-- The sequential STATUS_EMAIL assignment of build_analysis (lines 466 to
470): start from "Unico limpo" and let each later rule overwrite the label
of the rows it matches. -/
def statusFold (qtd : Nat) (susp valid : Bool) (e : List Char) : List Char :=
  let s := chars "Unico limpo"
  let s := if 1 < qtd then chars "Repetido" else s
  let s := if susp then chars "Suspeito" else s
  let s := if e ≠ [] ∧ valid = false then chars "Invalido" else s
  if e = [] then chars "Sem email" else s

/-- STATUS_EMAIL of one row given the normalized emails of the whole table:
the inputs of the override rules are the derived columns of build_analysis. -/
def rowStatus (norms : List (List Char)) (e : List Char) : List Char :=
  statusFold (qtdRep norms e) (!(classify_email e).isEmpty) (pyEmailRegexMatch e) e

/-- The STATUS_EMAIL column computed from the raw email column. -/
def statusColumn (emails : List (List Char)) : List (List Char) :=
  let norms := emails.map appEmailNorm
  norms.map (fun e => rowStatus norms e)

/-- The FAIXA_REPETICAO column computed from the raw email column. -/
def faixaColumn (emails : List (List Char)) : List (List Char) :=
  let norms := emails.map appEmailNorm
  norms.map (fun e => repeat_bucket (qtdRep norms e))

/-- The domain list of the interactive top_domains table (lines 485 to 489):
rows with a non-empty normalized email that contains an at sign, mapped to
the part after the first at sign; no validity filter is applied. -/
def interactiveDomains (norms : List (List Char)) : List (List Char) :=
  ((norms.filter (fun e => !e.isEmpty)).filter (fun e => '@' ∈ e)).map afterFirstAt

/-- The counter behind the interactive top_domains table. -/
def interactiveDomainCounter (norms : List (List Char)) : List (List Char × Nat) :=
  counterOf (interactiveDomains norms)

/-- The interactive top_domains table: value_counts of the domains, count
descending. -/
def top_domains_app (norms : List (List Char)) : List (List Char × Nat) :=
  sortDesc leCount (interactiveDomainCounter norms)

/-- The interactive repeated-email summary: value_counts of the non-empty
normalized emails, entries with count above one, re-sorted by count
descending then email ascending. -/
def repeated_summary_app (norms : List (List Char)) : List (List Char × Nat) :=
  sortDesc leCountKey
    ((sortDesc leCount (counterOf (norms.filter (fun e => !e.isEmpty)))).filter
      (fun p => 1 < p.2))

/-- One column of an uploaded table: its header label and its values. -/
def Col := (List Char) × List (List Char)

/-- Scanner behind the run-collapsing substitution of normalize_header;
prevUnd records whether the previous character already emitted the
underscore of the current run. -/
def collapseAux (prevUnd : Bool) : List Char → List Char
  | [] => []
  | c :: rest =>
    if isLowerAZ c || isDigit09 c then c :: collapseAux false rest
    else if prevUnd then collapseAux true rest
    else '_' :: collapseAux true rest

/-- Collapse every maximal run of characters outside a-z0-9 into one
underscore, the regex substitution of normalize_header. -/
def collapseNonAlnum (cs : List Char) : List Char := collapseAux false cs

/-- Strip underscores from both ends, Python strip(under-score). -/
def stripUnderscore (cs : List Char) : List Char :=
  ((cs.dropWhile (fun c => c = '_')).reverse.dropWhile (fun c => c = '_')).reverse

/-- normalize_header of sistema_analise_app.py. -/
def normalizeHeader (cs : List Char) : List Char :=
  stripUnderscore (collapseNonAlnum (pyLower (pyDeaccent (pyStrip cs))))

/-- The five semantic roles resolved by the column resolver. -/
inductive Role
  | source
  | document
  | nameRole
  | email
  | region
deriving DecidableEq

/-- HEADER_ALIASES of sistema_analise_app.py. -/
def aliasesOf : Role → List (List Char)
  | .source => [chars "origem", chars "nome_credor", chars "credor", chars "fonte", chars "orgao"]
  | .document => [chars "cpf_cnpj", chars "cpfcnpj", chars "cpf", chars "cnpj",
      chars "documento", chars "doc"]
  | .nameRole => [chars "nome", chars "nome_contribuinte", chars "cliente", chars "nome_cliente"]
  | .email => [chars "email", chars "e_mail", chars "e-mail", chars "mail",
      chars "correio_eletronico"]
  | .region => [chars "regiao", chars "regiao_creci", chars "regional", chars "creci",
      chars "regiao_uf"]

/-- guess_by_alias for one role: the first column whose normalized header is
one of the role's aliases. -/
def guessByAlias (cols : List Col) (r : Role) : Option (List Char) :=
  (cols.find? (fun c => normalizeHeader c.1 ∈ aliasesOf r)).map (fun c => c.1)

/-- A column score kept as the exact fraction hits over sample size, with a
positive denominator (one for an empty sample, whose score is zero).  The
scripts compare these values as double-precision floats; for samples of at
most 1000 values the float comparison agrees with the exact fraction
comparison used here. -/
def fracScore (hits total : Nat) : Nat × ℕ+ := (hits, ⟨max total 1, by omega⟩)

/-- score_email_column: fraction of the first 1000 stripped, lowered values
that contain an at sign; zero for an empty sample. -/
def score_email_column (vals : List (List Char)) : Nat × ℕ+ :=
  let sample := (vals.map (fun v => pyLower (pyStrip v))).take 1000
  fracScore (sample.countP (fun v => decide ('@' ∈ v))) sample.length

/-- score_document_column: fraction of the first 1000 stripped values whose
digits-only form has length 11 or 14. -/
def score_document_column (vals : List (List Char)) : Nat × ℕ+ :=
  let sample := (vals.map pyStrip).take 1000
  fracScore
    (sample.countP (fun v =>
      let d := (v.filter isDigit09).length
      decide (d = 11 ∨ d = 14)))
    sample.length

/-- score_name_column: fraction of the first 1000 stripped values containing
both a space and an ASCII letter. -/
def score_name_column (vals : List (List Char)) : Nat × ℕ+ :=
  let sample := (vals.map pyStrip).take 1000
  fracScore (sample.countP (fun v => decide (' ' ∈ v) && v.any isLetterAZ)) sample.length

/-- Fraction order on scores: x is at most y, by cross multiplication with
the positive denominators. -/
def fracLe (x y : Nat × ℕ+) : Prop := x.1 * (y.2 : Nat) ≤ y.1 * (x.2 : Nat)

instance (x y : Nat × ℕ+) : Decidable (fracLe x y) :=
  inferInstanceAs (Decidable (x.1 * (y.2 : Nat) ≤ y.1 * (x.2 : Nat)))

/-- Comparison placing larger scores first, the key of the sorted calls of
guess_columns. -/
def leScore {α : Type} (a b : α × (Nat × ℕ+)) : Bool := decide (fracLe b.2 a.2)

/-- The head of the stable score-descending sort, accepted only with a
positive score: scored(0)(0) if scored and scored(0)(1) greater than 0. -/
def pickBest (scored : List (List Char × (Nat × ℕ+))) : Option (List Char) :=
  match (sortDesc leScore scored).head? with
  | some p => if 0 < p.2.1 then some p.1 else none
  | none => none

/-- The mapping from roles to columns produced by guess_columns. -/
structure Guess where
  source : Option (List Char)
  document : Option (List Char)
  nameField : Option (List Char)
  email : Option (List Char)
  region : Option (List Char)
deriving DecidableEq

/-- guess_columns of sistema_analise_app.py: alias pass, positional fallback
when no alias matched and there are at least five columns, content scoring
over all columns for the email, document and name roles still unresolved,
then the source and region defaults. -/
def guess_columns (cols : List Col) : Guess :=
  let gSource := guessByAlias cols .source
  let gDocument := guessByAlias cols .document
  let gName := guessByAlias cols .nameRole
  let gEmail := guessByAlias cols .email
  let gRegion := guessByAlias cols .region
  if 5 ≤ cols.length ∧ gSource = none ∧ gDocument = none ∧ gName = none ∧
      gEmail = none ∧ gRegion = none then
    { source := (cols.get? 0).map (fun c => c.1)
      document := (cols.get? 1).map (fun c => c.1)
      nameField := (cols.get? 2).map (fun c => c.1)
      email := (cols.get? 3).map (fun c => c.1)
      region := (cols.get? 4).map (fun c => c.1) }
  else
    let email := match gEmail with
      | some c => some c
      | none => pickBest (cols.map (fun c => (c.1, score_email_column c.2)))
    let document := match gDocument with
      | some c => some c
      | none => pickBest (cols.map (fun c => (c.1, score_document_column c.2)))
    let nameField := match gName with
      | some c => some c
      | none => pickBest (cols.map (fun c => (c.1, score_name_column c.2)))
    let source := match gSource with
      | some c => some c
      | none => (cols.get? 0).map (fun c => c.1)
    let region := match gRegion with
      | some c => some c
      | none => if 5 ≤ cols.length then (cols.get? 4).map (fun c => c.1) else none
    { source := source, document := document, nameField := nameField,
      email := email, region := region }

/-- BRAZIL_UFS of sistema_analise_app.py, the 27 state codes. -/
def brazilUFs : List (List Char) :=
  [chars "AC", chars "AL", chars "AP", chars "AM", chars "BA", chars "CE", chars "DF",
   chars "ES", chars "GO", chars "MA", chars "MT", chars "MS", chars "MG", chars "PA",
   chars "PB", chars "PR", chars "PE", chars "PI", chars "RJ", chars "RN", chars "RS",
   chars "RO", chars "RR", chars "SC", chars "SP", chars "SE", chars "TO"]

/-- Try to read, right after a slash, optional whitespace then two uppercase
letters followed by a word boundary: one candidate of the first regex of
extract_brazil_uf. -/
def grabSlashCode (rest : List Char) : Option (List Char) :=
  match rest.dropWhile pyIsSpace with
  | a :: b :: t =>
    if isUpperAZ a && isUpperAZ b && (t.isEmpty || !isWordChar t.headI) then some [a, b]
    else none
  | _ => none

/-- All matches of the pattern slash, optional whitespace, two uppercase
letters, boundary; scanning character by character agrees with re.findall
because a match never contains a later slash. -/
def slashCodes : List Char → List (List Char)
  | [] => []
  | c :: rest =>
    (if c = '/' then
      match grabSlashCode rest with
      | some code => [code]
      | none => []
    else []) ++ slashCodes rest

/-- The end-of-string match of extract_brazil_uf: after optional trailing
whitespace, two uppercase letters preceded by a word boundary. -/
def endCode (cs : List Char) : Option (List Char) :=
  match cs.reverse.dropWhile pyIsSpace with
  | b :: a :: t =>
    if isUpperAZ a && isUpperAZ b && (t.isEmpty || !isWordChar t.headI) then some [a, b]
    else none
  | _ => none

/-- All standalone two-uppercase-letter tokens of a string, the third regex
of extract_brazil_uf; prev is the character just before the current
position. -/
def twoLetterTokens : Option Char → List Char → List (List Char)
  | _, [] => []
  | _, [_] => []
  | prev, a :: b :: rest =>
    (if (match prev with
          | some p => !isWordChar p
          | none => true) &&
        isUpperAZ a && isUpperAZ b && (rest.isEmpty || !isWordChar rest.headI) then [[a, b]]
     else []) ++ twoLetterTokens (some a) (b :: rest)

/-- Tiers two and three of extract_brazil_uf: try the end-of-string code,
then the last valid standalone token, else empty. -/
def ufTail (n : List Char) : List Char :=
  match endCode n with
  | some c =>
    if c ∈ brazilUFs then c
    else
      match ((twoLetterTokens none n).filter (fun t => t ∈ brazilUFs)).getLast? with
      | some t => t
      | none => []
  | none =>
    match ((twoLetterTokens none n).filter (fun t => t ∈ brazilUFs)).getLast? with
    | some t => t
    | none => []

/-- extract_brazil_uf of sistema_analise_app.py: strip and upper-case, stop
on empty, de-accent, then try the last code after a slash, the code at the
end of the string, and the last valid standalone token, validating each
candidate against the state list and falling through on failure. -/
def extract_brazil_uf (cs : List Char) : List Char :=
  let text := pyUpper (pyStrip cs)
  if text.isEmpty then []
  else
    let n := pyDeaccent text
    match (slashCodes n).getLast? with
    | some c => if c ∈ brazilUFs then c else ufTail n
    | none => ufTail n

/-- The reading of the claim about state-code extraction: choose one
candidate by the three-rule preference order, then yield it only when it is
a valid state code. -/
def specChooseUf (cs : List Char) : List Char :=
  let text := pyUpper (pyStrip cs)
  if text.isEmpty then []
  else
    let n := pyDeaccent text
    let candidate :=
      match (slashCodes n).getLast? with
      | some c => some c
      | none =>
        match endCode n with
        | some c => some c
        | none => (twoLetterTokens none n).getLast?
    match candidate with
    | some c => if c ∈ brazilUFs then c else []
    | none => []

/-! Helper lemmas about characters. -/

theorem charOfNat_toNat (n : Nat) (h : n ≤ 200) : (Char.ofNat n).toNat = n := by
  simp [Char.ofNat, Char.toNat, Char.ofNatAux]
  split
  · rfl
  · rename_i hh
    exfalso; apply hh; constructor; omega

theorem charToNat_inj (c d : Char) (h : c.toNat = d.toNat) : c = d := by
  apply Char.eq_of_val_eq
  apply UInt32.eq_of_toBitVec_eq
  apply BitVec.eq_of_toNat_eq
  exact h

theorem toNat_lowerChar (c : Char) :
    (lowerChar c).toNat = if 65 ≤ c.toNat ∧ c.toNat ≤ 90 then c.toNat + 32 else c.toNat := by
  unfold lowerChar
  split
  · rename_i h
    exact charOfNat_toNat _ (by omega)
  · rfl

theorem lowerChar_lowerChar (c : Char) : lowerChar (lowerChar c) = lowerChar c := by
  apply charToNat_inj
  rw [toNat_lowerChar, toNat_lowerChar]
  split_ifs <;> omega

theorem pyIsSpace_lowerChar (c : Char) : pyIsSpace (lowerChar c) = pyIsSpace c := by
  unfold pyIsSpace
  rw [toNat_lowerChar, Bool.eq_iff_iff]
  simp only [Bool.or_eq_true, Bool.and_eq_true, decide_eq_true_eq]
  split_ifs with h <;> omega

theorem lowerChar_eq_comma (c : Char) (h : lowerChar c = ',') : c = ',' := by
  have h44 : (',' : Char).toNat = 44 := by decide
  have := congrArg Char.toNat h
  rw [toNat_lowerChar, h44] at this
  apply charToNat_inj
  rw [h44]
  split_ifs at this <;> omega

/-! Helper lemmas about dropWhile, strip and lower. -/

theorem dropWhile_head_not {α : Type} (p : α → Bool) (l : List α) (a : α)
    (h : (l.dropWhile p).head? = some a) : p a = false := by
  induction l with
  | nil => simp [List.dropWhile] at h
  | cons c rest ih =>
    by_cases hc : p c
    · rw [List.dropWhile_cons_of_pos hc] at h
      exact ih h
    · rw [List.dropWhile_cons_of_neg hc] at h
      simp at h
      rw [← h]
      exact Bool.eq_false_iff.mpr hc

theorem dropWhile_idem {α : Type} (p : α → Bool) (l : List α) :
    (l.dropWhile p).dropWhile p = l.dropWhile p := by
  cases h : l.dropWhile p with
  | nil => rfl
  | cons a t =>
    have ha : p a = false := by
      apply dropWhile_head_not p l
      rw [h]
      rfl
    rw [List.dropWhile_cons_of_neg (by simp [ha])]

theorem dropWhile_eq_self_of_not {α : Type} (p : α → Bool) (l : List α)
    (h : ∀ a ∈ l, p a = false) : l.dropWhile p = l := by
  cases l with
  | nil => rfl
  | cons a t => exact List.dropWhile_cons_of_neg (by simp [h a (by simp)])

theorem pyStrip_dropWhile (cs : List Char) :
    (pyStrip cs).dropWhile pyIsSpace = pyStrip cs := by
  unfold pyStrip
  set Z := cs.dropWhile pyIsSpace with hZ
  have hZdrop : Z.dropWhile pyIsSpace = Z := by rw [hZ]; exact dropWhile_idem _ _
  set W := Z.reverse.dropWhile pyIsSpace with hW
  have hsuffix : ∃ D, Z.reverse = D ++ W := by
    exact ⟨Z.reverse.takeWhile pyIsSpace, (List.takeWhile_append_dropWhile ..).symm⟩
  obtain ⟨D, hD⟩ := hsuffix
  have hZ2 : Z = W.reverse ++ D.reverse := by
    have := congrArg List.reverse hD
    simpa using this
  cases hWrev : W.reverse with
  | nil => simp [hWrev]
  | cons a t =>
    have hhead : Z.head? = some a := by
      rw [hZ2, hWrev]
      rfl
    have ha : pyIsSpace a = false := by
      apply dropWhile_head_not pyIsSpace cs
      rw [← hZ]
      exact hhead
    exact List.dropWhile_cons_of_neg (by simp [ha])

theorem pyStrip_reverse_dropWhile (cs : List Char) :
    (pyStrip cs).reverse.dropWhile pyIsSpace = (pyStrip cs).reverse := by
  unfold pyStrip
  rw [List.reverse_reverse]
  exact dropWhile_idem _ _

theorem pyStrip_pyStrip (cs : List Char) : pyStrip (pyStrip cs) = pyStrip cs := by
  show (((pyStrip cs).dropWhile pyIsSpace).reverse.dropWhile pyIsSpace).reverse = pyStrip cs
  rw [pyStrip_dropWhile, pyStrip_reverse_dropWhile, List.reverse_reverse]

theorem pyStrip_pyLower (cs : List Char) : pyStrip (pyLower cs) = pyLower (pyStrip cs) := by
  have hcomp : ∀ l : List Char, (l.map lowerChar).dropWhile pyIsSpace =
      (l.dropWhile pyIsSpace).map lowerChar := by
    intro l
    induction l with
    | nil => rfl
    | cons a t ih =>
      by_cases ha : pyIsSpace a
      · have ha2 : pyIsSpace (lowerChar a) = true := by rw [pyIsSpace_lowerChar]; exact ha
        rw [List.map_cons, List.dropWhile_cons_of_pos ha2, List.dropWhile_cons_of_pos ha]
        exact ih
      · have ha2 : ¬pyIsSpace (lowerChar a) = true := by
          rw [pyIsSpace_lowerChar]; exact ha
        rw [List.map_cons, List.dropWhile_cons_of_neg ha2, List.dropWhile_cons_of_neg ha,
          List.map_cons]
  unfold pyStrip pyLower
  rw [hcomp, ← List.map_reverse, hcomp, ← List.map_reverse]

theorem pyLower_pyLower (cs : List Char) : pyLower (pyLower cs) = pyLower cs := by
  unfold pyLower
  rw [List.map_map]
  apply List.map_congr_left
  intro a _
  exact lowerChar_lowerChar a

theorem mem_pyStrip (a : Char) (cs : List Char) (h : a ∈ pyStrip cs) : a ∈ cs := by
  unfold pyStrip at h
  rw [List.mem_reverse] at h
  have h2 := (List.dropWhile_sublist _).mem h
  rw [List.mem_reverse] at h2
  exact (List.dropWhile_sublist _).mem h2

theorem rstripComma_of_not_mem (cs : List Char) (h : ',' ∉ cs) : rstripComma cs = cs := by
  unfold rstripComma
  rw [dropWhile_eq_self_of_not, List.reverse_reverse]
  intro a ha
  rw [List.mem_reverse] at ha
  simp only [decide_eq_false_iff_not]
  intro hac
  exact h (hac ▸ ha)

theorem not_mem_normalize_email (cs : List Char) (h : ',' ∉ cs) :
    ',' ∉ normalize_email cs := by
  unfold normalize_email pyLower
  intro hm
  rw [List.mem_map] at hm
  obtain ⟨c, hc, hlc⟩ := hm
  have := lowerChar_eq_comma c hlc
  exact h (this ▸ mem_pyStrip c cs hc)

theorem normalize_email_idem (cs : List Char) :
    normalize_email (normalize_email cs) = normalize_email cs := by
  show pyLower (pyStrip (pyLower (pyStrip cs))) = pyLower (pyStrip cs)
  rw [pyStrip_pyLower, pyStrip_pyStrip, pyLower_pyLower]

/-- C6 (counterexample): the interactive E_MAIL_NORM normalization is not
idempotent as claimed: on the input of one letter, one space and one comma,
stripping the trailing comma exposes trailing whitespace that only the second
application removes. -/
theorem C6_counterexample_interactive :
    appEmailNorm (appEmailNorm (chars "a ,")) ≠ appEmailNorm (chars "a ,") := by
  decide

/-- C6 (amended): the batch normalize_email (trim then lower-case) is
idempotent on every input; the interactive E_MAIL_NORM derivation (trim,
lower-case, strip trailing commas) is idempotent on every input containing
no comma. -/
theorem C6_normalization_idempotence :
    (∀ cs, normalize_email (normalize_email cs) = normalize_email cs) ∧
    (∀ cs, ',' ∉ cs → appEmailNorm (appEmailNorm cs) = appEmailNorm cs) := by
  refine ⟨normalize_email_idem, ?_⟩
  intro cs h
  have h2 : ',' ∉ normalize_email cs := not_mem_normalize_email cs h
  have h1 : appEmailNorm cs = normalize_email cs :=
    rstripComma_of_not_mem (normalize_email cs) h2
  have h3 : ',' ∉ normalize_email (normalize_email cs) := not_mem_normalize_email _ h2
  have h4 : appEmailNorm (normalize_email cs) = normalize_email (normalize_email cs) :=
    rstripComma_of_not_mem _ h3
  rw [h1, h4, normalize_email_idem]

/-- C6 witness: the amended idempotence applied to a concrete comma-free
email. -/
theorem C6_normalization_idempotence_witness :
    appEmailNorm (appEmailNorm (chars "a@b.co")) = appEmailNorm (chars "a@b.co") :=
  C6_normalization_idempotence.2 (chars "a@b.co") (by decide)

/-! Helper lemmas about splitAtFirst and splitAtLast. -/

theorem splitAtFirst_eq_some (sep : Char) (cs a b : List Char)
    (h : splitAtFirst sep cs = some (a, b)) : cs = a ++ sep :: b ∧ sep ∉ a := by
  induction cs generalizing a b with
  | nil => simp [splitAtFirst] at h
  | cons c rest ih =>
    unfold splitAtFirst at h
    by_cases hc : c = sep
    · rw [if_pos hc] at h
      simp only [Option.some_inj, Prod.mk.injEq] at h
      obtain ⟨h1, h2⟩ := h
      subst h1; subst h2; subst hc
      exact ⟨rfl, by simp⟩
    · rw [if_neg hc] at h
      cases hrec : splitAtFirst sep rest with
      | none => rw [hrec] at h; exact absurd h (by simp)
      | some p =>
        obtain ⟨a2, b2⟩ := p
        rw [hrec] at h
        simp only [Option.some_inj, Prod.mk.injEq] at h
        obtain ⟨h1, h2⟩ := h
        subst h1; subst h2
        obtain ⟨hr, hm⟩ := ih a2 b2 hrec
        constructor
        · rw [hr, List.cons_append]
        · intro hmem
          rcases List.mem_cons.mp hmem with h3 | h3
          · exact hc h3.symm
          · exact hm h3

theorem splitAtFirst_append (sep : Char) (a b : List Char) (h : sep ∉ a) :
    splitAtFirst sep (a ++ sep :: b) = some (a, b) := by
  induction a with
  | nil => simp [splitAtFirst]
  | cons c t ih =>
    have hc : ¬c = sep := fun hcc => h (by rw [hcc]; simp)
    have ht : sep ∉ t := fun hm => h (by simp [hm])
    rw [List.cons_append]
    unfold splitAtFirst
    rw [if_neg hc, ih ht]

theorem splitAtLast_eq_some (sep : Char) (cs d t : List Char)
    (h : splitAtLast sep cs = some (d, t)) : cs = d ++ sep :: t ∧ sep ∉ t := by
  unfold splitAtLast at h
  cases hrec : splitAtFirst sep cs.reverse with
  | none => rw [hrec] at h; exact absurd h (by simp)
  | some p =>
    obtain ⟨a, b⟩ := p
    rw [hrec] at h
    simp only [Option.some_inj, Prod.mk.injEq] at h
    obtain ⟨h1, h2⟩ := h
    obtain ⟨hcs, hmem⟩ := splitAtFirst_eq_some sep cs.reverse a b hrec
    constructor
    · have hcs2 := congrArg List.reverse hcs
      rw [List.reverse_reverse] at hcs2
      rw [hcs2, ← h1, ← h2]
      simp [List.reverse_append, List.reverse_cons]
    · rw [← h2]
      intro hmt
      exact hmem (List.mem_reverse.mp hmt)

theorem splitAtLast_append (sep : Char) (d t : List Char) (h : sep ∉ t) :
    splitAtLast sep (d ++ sep :: t) = some (d, t) := by
  unfold splitAtLast
  have hrev : (d ++ sep :: t).reverse = t.reverse ++ sep :: d.reverse := by
    simp [List.reverse_append, List.reverse_cons]
  rw [hrev, splitAtFirst_append sep _ _ (fun hm => h (List.mem_reverse.mp hm))]
  simp

/-- The operational regex matcher agrees with the declarative decomposition
of the pattern. -/
theorem emailCheck_iff (cs : List Char) : emailCheck cs = true ↔ EmailMatch cs := by
  constructor
  · intro h
    unfold emailCheck at h
    cases hs : splitAtFirst '@' cs with
    | none => rw [hs] at h; exact absurd h (by simp)
    | some p =>
      obtain ⟨l, r⟩ := p
      rw [hs] at h
      simp only [Bool.and_eq_true] at h
      obtain ⟨⟨hl1, hl2⟩, ht⟩ := h
      unfold emailTailCheck at ht
      cases hs2 : splitAtLast '.' r with
      | none => rw [hs2] at ht; exact absurd ht (by simp)
      | some q =>
        obtain ⟨d, t⟩ := q
        rw [hs2] at ht
        simp only [Bool.and_eq_true] at ht
        obtain ⟨⟨⟨hd1, hd2⟩, ht1⟩, ht2⟩ := ht
        obtain ⟨hcs, _⟩ := splitAtFirst_eq_some '@' cs l r hs
        obtain ⟨hr, _⟩ := splitAtLast_eq_some '.' r d t hs2
        refine ⟨l, d, t, ?_, ?_, ?_, ?_, ?_, ?_, ?_⟩
        · rw [hcs, hr]
        · intro hl0; rw [hl0] at hl1; exact absurd hl1 (by simp)
        · exact fun c hc => List.all_eq_true.mp hl2 c hc
        · intro hd0; rw [hd0] at hd1; exact absurd hd1 (by simp)
        · exact fun c hc => List.all_eq_true.mp hd2 c hc
        · exact of_decide_eq_true ht1
        · exact fun c hc => List.all_eq_true.mp ht2 c hc
  · rintro ⟨l, d, t, rfl, hl, hlc, hd, hdc, htlen, htc⟩
    unfold emailCheck
    have h1 : splitAtFirst '@' (l ++ '@' :: (d ++ '.' :: t)) = some (l, d ++ '.' :: t) :=
      splitAtFirst_append _ _ _ (fun hm => absurd (hlc '@' hm) (by decide))
    rw [h1]
    show (!l.isEmpty && l.all isLocalChar && emailTailCheck (d ++ '.' :: t)) = true
    unfold emailTailCheck
    have h2 : splitAtLast '.' (d ++ '.' :: t) = some (d, t) :=
      splitAtLast_append _ _ _ (fun hm => absurd (htc '.' hm) (by decide))
    rw [h2]
    have b1 : l.isEmpty = false := by
      cases l with
      | nil => exact absurd rfl hl
      | cons x xs => rfl
    have b3 : d.isEmpty = false := by
      cases d with
      | nil => exact absurd rfl hd
      | cons x xs => rfl
    simp [b1, b3, List.all_eq_true.mpr hlc, List.all_eq_true.mpr hdc, htlen,
      List.all_eq_true.mpr htc]

/-- C2 (counterexample): a valid body followed by one newline is accepted by
is_valid_email although it does not match the pattern anchored at both ends,
because the dollar anchor of Python re also matches just before a final
newline. -/
theorem C2_counterexample_trailing_newline :
    is_valid_email (chars "a@b.co\n") = true ∧ ¬EmailMatch (chars "a@b.co\n") := by
  constructor
  · decide
  · intro h
    have h2 : emailCheck (chars "a@b.co\n") = true := (emailCheck_iff _).mpr h
    exact absurd h2 (by decide)

/-- C2 (amended): is_valid_email accepts exactly the strings that match the
anchored pattern, or that match it after removing one final newline (the
dollar-anchor semantics of Python re); a one-character final label is
rejected and a two-character final label is accepted. -/
theorem C2_email_regex :
    (∀ cs, is_valid_email cs = true ↔
      (EmailMatch cs ∨ (cs.getLast? = some '\n' ∧ EmailMatch cs.dropLast))) ∧
    is_valid_email (chars "a@b.c") = false ∧ is_valid_email (chars "a@b.co") = true := by
  refine ⟨?_, by decide, by decide⟩
  intro cs
  unfold is_valid_email pyEmailRegexMatch
  rw [Bool.or_eq_true]
  constructor
  · rintro (h | h)
    · exact Or.inl ((emailCheck_iff _).mp h)
    · right
      cases hl : cs.getLast? with
      | none => rw [hl] at h; exact absurd h (by simp)
      | some c =>
        rw [hl] at h
        rw [Bool.and_eq_true, decide_eq_true_eq] at h
        exact ⟨by rw [h.1], (emailCheck_iff _).mp h.2⟩
  · rintro (h | ⟨h1, h2⟩)
    · exact Or.inl ((emailCheck_iff _).mpr h)
    · right
      rw [h1]
      rw [Bool.and_eq_true, decide_eq_true_eq]
      exact ⟨rfl, (emailCheck_iff _).mpr h2⟩

/-- C2 witness: the characterization applied to a concrete accepted email. -/
theorem C2_email_regex_witness : EmailMatch (chars "a@b.co") :=
  ((C2_email_regex.1 (chars "a@b.co")).mp (by decide)).resolve_right
    (fun hh => absurd hh.1 (by decide))

/-! Helper lemmas about the stable sort, the lexicographic order and
counters. -/

theorem mem_insertDesc {α : Type} (le : α → α → Bool) (x y : α) (l : List α) :
    y ∈ insertDesc le x l ↔ y = x ∨ y ∈ l := by
  induction l with
  | nil => simp [insertDesc]
  | cons z zs ih =>
    unfold insertDesc
    by_cases h : le x z
    · rw [if_pos h]
      simp [List.mem_cons]
    · rw [if_neg h]
      simp only [List.mem_cons, ih]
      tauto

theorem mem_sortDesc {α : Type} (le : α → α → Bool) (y : α) (l : List α) :
    y ∈ sortDesc le l ↔ y ∈ l := by
  induction l with
  | nil => simp [sortDesc]
  | cons z zs ih =>
    unfold sortDesc
    rw [mem_insertDesc, ih]
    simp [List.mem_cons]

theorem pairwise_insertDesc {α : Type} (le : α → α → Bool)
    (htrans : ∀ a b c, le a b = true → le b c = true → le a c = true)
    (htot : ∀ a b, le a b = true ∨ le b a = true) (x : α) (l : List α)
    (h : l.Pairwise (fun a b => le a b = true)) :
    (insertDesc le x l).Pairwise (fun a b => le a b = true) := by
  induction l with
  | nil => simp [insertDesc]
  | cons z zs ih =>
    rw [List.pairwise_cons] at h
    unfold insertDesc
    by_cases hxz : le x z
    · rw [if_pos hxz]
      rw [List.pairwise_cons]
      refine ⟨?_, List.pairwise_cons.mpr h⟩
      intro b hb
      rcases List.mem_cons.mp hb with hb2 | hb2
      · rw [hb2]; exact hxz
      · exact htrans x z b hxz (h.1 b hb2)
    · rw [if_neg hxz]
      rw [List.pairwise_cons]
      constructor
      · intro b hb
        rcases (mem_insertDesc le x b zs).mp hb with hb2 | hb2
        · rw [hb2]
          rcases htot x z with h3 | h3
          · exact absurd h3 hxz
          · exact h3
        · exact h.1 b hb2
      · exact ih h.2

theorem pairwise_sortDesc {α : Type} (le : α → α → Bool)
    (htrans : ∀ a b c, le a b = true → le b c = true → le a c = true)
    (htot : ∀ a b, le a b = true ∨ le b a = true) (l : List α) :
    (sortDesc le l).Pairwise (fun a b => le a b = true) := by
  induction l with
  | nil => simp [sortDesc]
  | cons z zs ih => exact pairwise_insertDesc le htrans htot z (sortDesc le zs) ih

theorem sortDesc_head_le {α : Type} (le : α → α → Bool)
    (htrans : ∀ a b c, le a b = true → le b c = true → le a c = true)
    (htot : ∀ a b, le a b = true ∨ le b a = true) (l : List α) (m : α)
    (h : (sortDesc le l).head? = some m) : ∀ y ∈ l, le m y = true := by
  intro y hy
  have hsorted := pairwise_sortDesc le htrans htot l
  have hym : y ∈ sortDesc le l := (mem_sortDesc le y l).mpr hy
  cases hs : sortDesc le l with
  | nil => rw [hs] at hym; exact absurd hym (by simp)
  | cons m2 rest =>
    rw [hs] at h
    have hm2 : m2 = m := by
      simp only [List.head?] at h
      exact Option.some_inj.mp h
    rw [hs] at hym hsorted
    rw [List.pairwise_cons] at hsorted
    rcases List.mem_cons.mp hym with h2 | h2
    · rw [h2, ← hm2]
      rcases htot m2 m2 with h3 | h3 <;> exact h3
    · rw [← hm2]
      exact hsorted.1 y h2

theorem lexLe_total (xs ys : List Char) : lexLe xs ys = true ∨ lexLe ys xs = true := by
  induction xs generalizing ys with
  | nil => left; rfl
  | cons a xs2 ih =>
    cases ys with
    | nil => right; rfl
    | cons b ys2 =>
      unfold lexLe
      by_cases hab : a = b
      · rw [if_pos hab, if_pos hab.symm]
        exact ih ys2
      · rw [if_neg hab, if_neg (fun hba => hab hba.symm)]
        rcases lt_trichotomy a b with h | h | h
        · left; exact decide_eq_true h
        · exact absurd h hab
        · right; exact decide_eq_true h

theorem lexLe_trans (xs ys zs : List Char) (h1 : lexLe xs ys = true)
    (h2 : lexLe ys zs = true) : lexLe xs zs = true := by
  induction xs generalizing ys zs with
  | nil => rfl
  | cons a xs2 ih =>
    cases ys with
    | nil => exact absurd h1 (by simp [lexLe])
    | cons b ys2 =>
      cases zs with
      | nil => exact absurd h2 (by simp [lexLe])
      | cons c zs2 =>
        unfold lexLe at h1 h2 ⊢
        by_cases hab : a = b
        · rw [if_pos hab] at h1
          by_cases hbc : b = c
          · rw [if_pos hbc] at h2
            rw [if_pos (hab.trans hbc)]
            exact ih ys2 zs2 h1 h2
          · rw [if_neg hbc] at h2
            have hac : ¬a = c := fun h => hbc (hab ▸ h)
            rw [if_neg hac]
            rw [hab]
            exact h2
        · rw [if_neg hab] at h1
          have hlab : a < b := of_decide_eq_true h1
          by_cases hbc : b = c
          · have hac : ¬a = c := fun h => hab (h.trans hbc.symm)
            rw [if_neg hac]
            exact decide_eq_true (hbc ▸ hlab)
          · rw [if_neg hbc] at h2
            have hlbc : b < c := of_decide_eq_true h2
            have hlac : a < c := lt_trans hlab hlbc
            rw [if_neg (fun (h : a = c) => absurd (h ▸ hlac) (lt_irrefl c))]
            exact decide_eq_true hlac

theorem leCount_trans {α : Type} (a b c : α × Nat) (h1 : leCount a b = true)
    (h2 : leCount b c = true) : leCount a c = true := by
  unfold leCount at h1 h2 ⊢
  rw [decide_eq_true_eq] at h1 h2 ⊢
  omega

theorem leCount_total {α : Type} (a b : α × Nat) :
    leCount a b = true ∨ leCount b a = true := by
  unfold leCount
  rw [decide_eq_true_eq, decide_eq_true_eq]
  omega

theorem leCountKey_trans (a b c : List Char × Nat) (h1 : leCountKey a b = true)
    (h2 : leCountKey b c = true) : leCountKey a c = true := by
  unfold leCountKey at h1 h2 ⊢
  simp only [Bool.or_eq_true, Bool.and_eq_true, decide_eq_true_eq] at h1 h2 ⊢
  rcases h1 with h1 | ⟨h1a, h1b⟩
  · rcases h2 with h2 | ⟨h2a, h2b⟩
    · left; omega
    · left; omega
  · rcases h2 with h2 | ⟨h2a, h2b⟩
    · left; omega
    · right
      exact ⟨h1a.trans h2a, lexLe_trans _ _ _ h1b h2b⟩

theorem leCountKey_total (a b : List Char × Nat) :
    leCountKey a b = true ∨ leCountKey b a = true := by
  unfold leCountKey
  simp only [Bool.or_eq_true, Bool.and_eq_true, decide_eq_true_eq]
  rcases Nat.lt_trichotomy a.2 b.2 with h | h | h
  · right; left; omega
  · rcases lexLe_total a.1 b.1 with h2 | h2
    · left; right; exact ⟨h, h2⟩
    · right; right; exact ⟨h.symm, h2⟩
  · left; left; omega

theorem leSetSize_trans {α β : Type} (a b c : α × List β) (h1 : leSetSize a b = true)
    (h2 : leSetSize b c = true) : leSetSize a c = true := by
  unfold leSetSize at h1 h2 ⊢
  rw [decide_eq_true_eq] at h1 h2 ⊢
  omega

theorem leSetSize_total {α β : Type} (a b : α × List β) :
    leSetSize a b = true ∨ leSetSize b a = true := by
  unfold leSetSize
  rw [decide_eq_true_eq, decide_eq_true_eq]
  omega

theorem fracLe_trans (x y z : Nat × ℕ+) (h1 : fracLe x y) (h2 : fracLe y z) :
    fracLe x z := by
  unfold fracLe at h1 h2 ⊢
  have hy : 0 < (y.2 : Nat) := y.2.property
  have m1 : x.1 * (z.2 : Nat) * (y.2 : Nat) ≤ z.1 * (x.2 : Nat) * (y.2 : Nat) := by
    calc x.1 * (z.2 : Nat) * (y.2 : Nat) = (x.1 * (y.2 : Nat)) * (z.2 : Nat) := by ring
    _ ≤ (y.1 * (x.2 : Nat)) * (z.2 : Nat) := Nat.mul_le_mul_right _ h1
    _ = (y.1 * (z.2 : Nat)) * (x.2 : Nat) := by ring
    _ ≤ (z.1 * (y.2 : Nat)) * (x.2 : Nat) := Nat.mul_le_mul_right _ h2
    _ = z.1 * (x.2 : Nat) * (y.2 : Nat) := by ring
  exact Nat.le_of_mul_le_mul_right m1 hy

theorem leScore_trans {α : Type} (a b c : α × (Nat × ℕ+)) (h1 : leScore a b = true)
    (h2 : leScore b c = true) : leScore a c = true := by
  unfold leScore at h1 h2 ⊢
  rw [decide_eq_true_eq] at h1 h2 ⊢
  exact fracLe_trans _ _ _ h2 h1

theorem leScore_total {α : Type} (a b : α × (Nat × ℕ+)) :
    leScore a b = true ∨ leScore b a = true := by
  unfold leScore
  rw [decide_eq_true_eq, decide_eq_true_eq]
  unfold fracLe
  rcases Nat.le_total (b.2.1 * (a.2.2 : Nat)) (a.2.1 * (b.2.2 : Nat)) with h | h
  · left; exact h
  · right; exact h

theorem sumCounts_bump {α : Type} [DecidableEq α] (k : α) (c : List (α × Nat)) :
    sumCounts (bump k c) = sumCounts c + 1 := by
  induction c with
  | nil => rfl
  | cons p rest ih =>
    obtain ⟨k2, n⟩ := p
    unfold bump
    by_cases h : k2 = k
    · rw [if_pos h]
      unfold sumCounts
      simp only [List.map_cons, List.sum_cons]
      omega
    · rw [if_neg h]
      unfold sumCounts at ih ⊢
      simp only [List.map_cons, List.sum_cons]
      omega

theorem sumCounts_counterOf_aux {α : Type} [DecidableEq α] (ks : List α)
    (acc : List (α × Nat)) :
    sumCounts (ks.foldl (fun a k => bump k a) acc) = sumCounts acc + ks.length := by
  induction ks generalizing acc with
  | nil => simp
  | cons k rest ih =>
    simp only [List.foldl_cons, List.length_cons]
    rw [ih, sumCounts_bump]
    omega

theorem sumCounts_counterOf {α : Type} [DecidableEq α] (ks : List α) :
    sumCounts (counterOf ks) = ks.length := by
  unfold counterOf
  rw [sumCounts_counterOf_aux]
  simp [sumCounts]

theorem pairwise_geCount_sortDesc {α : Type} (l : List (α × Nat)) :
    (sortDesc leCount l).Pairwise (fun a b => b.2 ≤ a.2) :=
  (pairwise_sortDesc leCount leCount_trans leCount_total l).imp
    (fun h => of_decide_eq_true h)

theorem pairwise_geLen_sortDesc {α β : Type} (l : List (α × List β)) :
    (sortDesc leSetSize l).Pairwise (fun a b => b.2.length ≤ a.2.length) :=
  (pairwise_sortDesc leSetSize leSetSize_trans leSetSize_total l).imp
    (fun h => of_decide_eq_true h)

/-- C1 (counterexample): the batch top-domains ranking does not order equal
counts by key ascending: with two single-occurrence domains inserted in
descending key order, most_common keeps the insertion order. -/
theorem C1_counterexample_tie_order :
    ¬RankedByCountThenKey (top_dominios
      [⟨[], [], [], chars "x@b.com"⟩, ⟨[], [], [], chars "y@a.com"⟩]) := by
  unfold RankedByCountThenKey
  decide

/-- C1 (amended): every batch ranking and the interactive top-domains table
are ordered by count descending, with equal counts kept in first-occurrence
order rather than key-ascending order (witnessed by the concrete run in the
last conjunct); only the interactive repeated-email summary is ordered by
count descending with ties by key ascending. -/
theorem C1_ranking_orders :
    (∀ rows, (top_dominios rows).Pairwise (fun a b => b.2 ≤ a.2)) ∧
    (∀ rows, (top_emails_repetidos rows).Pairwise (fun a b => b.2 ≤ a.2)) ∧
    (∀ rows, (top_documentos_por_linhas rows).Pairwise (fun a b => b.2 ≤ a.2)) ∧
    (∀ rows, (top_documentos_por_emails_unicos rows).Pairwise (fun a b => b.2 ≤ a.2)) ∧
    (∀ rows, (top_contribuintes_por_emails_unicos rows).Pairwise (fun a b => b.2 ≤ a.2)) ∧
    (∀ norms, RankedByCountThenKey (repeated_summary_app norms)) ∧
    (∀ norms, (top_domains_app norms).Pairwise (fun a b => b.2 ≤ a.2)) ∧
    top_dominios [⟨[], [], [], chars "x@b.com"⟩, ⟨[], [], [], chars "y@a.com"⟩] =
      [(chars "b.com", 1), (chars "a.com", 1)] := by
  refine ⟨?_, ?_, ?_, ?_, ?_, ?_, ?_, by decide⟩
  · intro rows
    exact (pairwise_geCount_sortDesc _).sublist (List.take_sublist _ _)
  · intro rows
    exact ((pairwise_geCount_sortDesc _).sublist (List.take_sublist _ _)).sublist
      (List.filter_sublist _)
  · intro rows
    exact ((pairwise_geCount_sortDesc _).sublist (List.take_sublist _ _)).sublist
      (List.filter_sublist _)
  · intro rows
    refine List.Pairwise.map _ ?_
      (((pairwise_geLen_sortDesc _).sublist (List.take_sublist _ _)).sublist
        (List.filter_sublist _))
    intro a b h
    exact h
  · intro rows
    refine List.Pairwise.map _ ?_
      (((pairwise_geLen_sortDesc _).sublist (List.take_sublist _ _)).sublist
        (List.filter_sublist _))
    intro a b h
    exact h
  · intro norms
    unfold RankedByCountThenKey repeated_summary_app
    refine (pairwise_sortDesc leCountKey leCountKey_trans leCountKey_total _).imp ?_
    intro a b h
    unfold leCountKey at h
    simp only [Bool.or_eq_true, Bool.and_eq_true, decide_eq_true_eq] at h
    exact h
  · intro norms
    exact pairwise_geCount_sortDesc _

/-! Helper lemmas for the domain aggregation. -/

theorem filterMap_guard {α β : Type} (p : α → Prop) [DecidablePred p] (f : α → β)
    (l : List α) :
    l.filterMap (fun a => if p a then some (f a) else none) =
      (l.filter (fun a => decide (p a))).map f := by
  induction l with
  | nil => rfl
  | cons a rest ih =>
    by_cases h : p a
    · simp [List.filterMap_cons, List.filter_cons, h, ih]
    · simp [List.filterMap_cons, List.filter_cons, h, ih]

theorem valid_email_at (e : List Char) (h : pyEmailRegexMatch e = true) :
    '@' ∈ e ∧ afterFirstAt e ≠ [] := by
  unfold pyEmailRegexMatch at h
  rw [Bool.or_eq_true] at h
  rcases h with h | h
  · obtain ⟨l, d, t, rfl, _, hlc, _, _, _, _⟩ := (emailCheck_iff _).mp h
    have hsp : splitAtFirst '@' (l ++ '@' :: (d ++ '.' :: t)) = some (l, d ++ '.' :: t) :=
      splitAtFirst_append _ _ _ (fun hm => absurd (hlc '@' hm) (by decide))
    constructor
    · simp
    · unfold afterFirstAt
      rw [hsp]
      simp
  · cases hl : e.getLast? with
    | none => rw [hl] at h; exact absurd h (by simp)
    | some c =>
      rw [hl] at h
      rw [Bool.and_eq_true, decide_eq_true_eq] at h
      obtain ⟨hc, h2⟩ := h
      obtain ⟨l, d, t, hdrop, _, hlc, _, _, _, _⟩ := (emailCheck_iff _).mp h2
      have hne : e ≠ [] := by
        intro h0
        rw [h0] at hl
        exact absurd hl (by simp)
      have he : e = e.dropLast ++ [c] := by
        have h3 := List.dropLast_append_getLast hne
        have h4 : e.getLast hne = c := by
          have h5 := List.getLast?_eq_getLast e hne
          rw [hl] at h5
          exact (Option.some_inj.mp h5).symm
        rw [← h4]
        exact h3.symm
      have he2 : e = l ++ '@' :: ((d ++ '.' :: t) ++ [c]) := by
        rw [he, hdrop]
        simp [List.append_assoc, List.cons_append]
      have hsp : splitAtFirst '@' e = some (l, (d ++ '.' :: t) ++ [c]) := by
        rw [he2]
        exact splitAtFirst_append _ _ _ (fun hm => absurd (hlc '@' hm) (by decide))
      constructor
      · rw [he2]
        simp
      · unfold afterFirstAt
        rw [hsp]
        simp

/-- C8 (counterexample): the interactive top-domains table counts a row whose
email contains an at sign but fails format validation, contradicting the
claim that only valid rows are counted in both variants. -/
theorem C8_counterexample_invalid_domain_counted :
    interactiveDomainCounter [chars "a@b"] = [(chars "b", 1)] ∧
    is_valid_email (chars "a@b") = false := ⟨by decide, by decide⟩

/-- C8 (amended): the batch domain counter counts exactly the rows whose
treated email is non-empty and passes validation, its counts sum to the
number of such rows, and every counted domain is non-empty; the interactive
top-domains table instead counts every row whose normalized email is
non-empty and contains an at sign, regardless of validity, and its counts
sum to the number of such rows. -/
theorem C8_domain_aggregation :
    (∀ rows, batchDomains rows =
      (rows.filter (fun r =>
        decide (cleanEmailOf r ≠ [] ∧ is_valid_email (cleanEmailOf r) = true))).map
        (fun r => afterFirstAt (cleanEmailOf r))) ∧
    (∀ rows, sumCounts (domainCounter rows) =
      (rows.filter (fun r =>
        decide (cleanEmailOf r ≠ [] ∧ is_valid_email (cleanEmailOf r) = true))).length) ∧
    (∀ rows e, e ∈ batchDomains rows → e ≠ []) ∧
    (∀ norms, sumCounts (interactiveDomainCounter norms) =
      ((norms.filter (fun e => !e.isEmpty)).filter (fun e => decide ('@' ∈ e))).length) := by
  have part1 : ∀ rows, batchDomains rows =
      (rows.filter (fun r =>
        decide (cleanEmailOf r ≠ [] ∧ is_valid_email (cleanEmailOf r) = true))).map
        (fun r => afterFirstAt (cleanEmailOf r)) := by
    intro rows
    unfold batchDomains
    rw [filterMap_guard
      (fun r => cleanEmailOf r ≠ [] ∧ is_valid_email (cleanEmailOf r) = true ∧
        '@' ∈ cleanEmailOf r) (fun r => afterFirstAt (cleanEmailOf r)) rows]
    congr 1
    apply List.filter_congr
    intro r _
    by_cases hv : cleanEmailOf r ≠ [] ∧ is_valid_email (cleanEmailOf r) = true
    · have hat : '@' ∈ cleanEmailOf r := (valid_email_at _ hv.2).1
      simp [hv.1, hv.2, hat]
    · rcases Decidable.not_and_iff_or_not.mp hv with h | h
      · simp only [ne_eq, Decidable.not_not] at h
        simp [h]
      · simp [h]
  refine ⟨part1, ?_, ?_, ?_⟩
  · intro rows
    unfold domainCounter
    rw [sumCounts_counterOf, part1, List.length_map]
  · intro rows e he
    rw [part1] at he
    rw [List.mem_map] at he
    obtain ⟨r, hr, hre⟩ := he
    rw [List.mem_filter] at hr
    have hv := of_decide_eq_true hr.2
    rw [← hre]
    exact (valid_email_at _ hv.2).2
  · intro norms
    unfold interactiveDomainCounter
    rw [sumCounts_counterOf]
    unfold interactiveDomains
    rw [List.length_map]

/-- C8 witness: a concrete counted batch domain is non-empty. -/
theorem C8_domain_aggregation_witness :
    chars "b.com" ≠ ([] : List Char) :=
  C8_domain_aggregation.2.2.1 [⟨[], [], [], chars "x@b.com"⟩] (chars "b.com") (by decide)

/-! Helper lemmas about the batch duplicate scan. -/

theorem batchDupScan_cons_mem (seen : List (List Char × List Char × List Char × List Char))
    (r : Row) (rest : List Row) (h : rowIdentity r ∈ seen) :
    batchDupScan seen (r :: rest) =
      (true :: (batchDupScan seen rest).1, r :: (batchDupScan seen rest).2.1,
       (batchDupScan seen rest).2.2 + 1) := by
  simp only [batchDupScan]
  rw [if_pos h]

theorem batchDupScan_cons_new (seen : List (List Char × List Char × List Char × List Char))
    (r : Row) (rest : List Row) (h : rowIdentity r ∉ seen) :
    batchDupScan seen (r :: rest) =
      (false :: (batchDupScan (rowIdentity r :: seen) rest).1,
       (batchDupScan (rowIdentity r :: seen) rest).2.1,
       (batchDupScan (rowIdentity r :: seen) rest).2.2) := by
  simp only [batchDupScan]
  rw [if_neg h]

theorem batchDupScan_flag (seen : List (List Char × List Char × List Char × List Char))
    (rows : List Row) (i : Nat) (hi : i < rows.length) :
    (batchDupScan seen rows).1.getD i false =
      decide (rowIdentity (rows.getD i default) ∈ seen ∨
        rowIdentity (rows.getD i default) ∈ (rows.take i).map rowIdentity) := by
  induction rows generalizing seen i with
  | nil => simp at hi
  | cons r rest ih =>
    by_cases h : rowIdentity r ∈ seen
    · rw [batchDupScan_cons_mem _ _ _ h]
      cases i with
      | zero => simp [h]
      | succ j =>
        have hj : j < rest.length := by simpa using hi
        simp only [List.getD_cons_succ, List.take_succ_cons, List.map_cons]
        rw [ih seen j hj, decide_eq_decide]
        simp only [List.mem_cons]
        constructor
        · intro h2
          tauto
        · rintro (h2 | h2 | h2)
          · exact Or.inl h2
          · exact Or.inl (h2 ▸ h)
          · exact Or.inr h2
    · rw [batchDupScan_cons_new _ _ _ h]
      cases i with
      | zero => simp [h]
      | succ j =>
        have hj : j < rest.length := by simpa using hi
        simp only [List.getD_cons_succ, List.take_succ_cons, List.map_cons]
        rw [ih (rowIdentity r :: seen) j hj, decide_eq_decide]
        simp only [List.mem_cons]
        tauto

theorem batchDupScan_rows (seen : List (List Char × List Char × List Char × List Char))
    (rows : List Row) :
    (batchDupScan seen rows).2.1 =
      ((rows.zip (batchDupScan seen rows).1).filter (fun p => p.2)).map (fun p => p.1) := by
  induction rows generalizing seen with
  | nil => rfl
  | cons r rest ih =>
    by_cases h : rowIdentity r ∈ seen
    · rw [batchDupScan_cons_mem _ _ _ h]
      rw [List.zip_cons_cons, List.filter_cons_of_pos (by rfl), List.map_cons]
      exact congrArg _ (ih seen)
    · rw [batchDupScan_cons_new _ _ _ h]
      rw [List.zip_cons_cons, List.filter_cons_of_neg (by simp)]
      exact ih _

theorem newDistinct_le {α : Type} [DecidableEq α] (seen : List α) (l : List α) :
    newDistinct seen l ≤ l.length := by
  induction l generalizing seen with
  | nil => simp [newDistinct]
  | cons t rest ih =>
    simp only [newDistinct]
    by_cases h : t ∈ seen
    · rw [if_pos h]
      exact le_trans (ih seen) (by simp)
    · rw [if_neg h]
      simpa using ih (t :: seen)

theorem batchDupScan_count (seen : List (List Char × List Char × List Char × List Char))
    (rows : List Row) :
    (batchDupScan seen rows).2.2 = rows.length - newDistinct seen (rows.map rowIdentity) := by
  induction rows generalizing seen with
  | nil => rfl
  | cons r rest ih =>
    by_cases h : rowIdentity r ∈ seen
    · rw [batchDupScan_cons_mem _ _ _ h]
      simp only [List.map_cons, List.length_cons]
      rw [ih seen]
      simp only [newDistinct]
      rw [if_pos h]
      have := newDistinct_le seen (rest.map rowIdentity)
      rw [List.length_map] at this
      omega
    · rw [batchDupScan_cons_new _ _ _ h]
      simp only [List.map_cons, List.length_cons]
      rw [ih (rowIdentity r :: seen)]
      simp only [newDistinct]
      rw [if_neg h]
      have := newDistinct_le (rowIdentity r :: seen) (rest.map rowIdentity)
      rw [List.length_map] at this
      omega

theorem newDistinct_card {α : Type} [DecidableEq α] (seen l : List α) :
    newDistinct seen l = (l.toFinset \ seen.toFinset).card := by
  induction l generalizing seen with
  | nil => simp [newDistinct]
  | cons t rest ih =>
    simp only [newDistinct]
    by_cases h : t ∈ seen
    · rw [if_pos h, ih seen, List.toFinset_cons]
      rw [Finset.insert_sdiff_of_mem _ (List.mem_toFinset.mpr h)]
    · rw [if_neg h, ih (t :: seen), List.toFinset_cons, List.toFinset_cons]
      rw [Finset.sdiff_insert]
      rw [Finset.insert_sdiff_of_not_mem _ (fun hm => h (List.mem_toFinset.mp hm))]
      set Y := rest.toFinset \ seen.toFinset
      by_cases ht : t ∈ Y
      · rw [Finset.insert_eq_self.mpr ht]
        rw [Finset.card_erase_add_one ht]
      · rw [Finset.erase_eq_of_not_mem ht]
        rw [Finset.card_insert_of_not_mem ht]

theorem dupCount_eq (rows : List Row) :
    dupCount rows = rows.length - (rows.map rowIdentity).dedup.length := by
  unfold dupCount
  rw [batchDupScan_count, newDistinct_card]
  simp [List.card_toFinset]

theorem length_le_sum_map {α : Type} (l : List α) (f : α → Nat)
    (h : ∀ x ∈ l, 1 ≤ f x) : l.length ≤ (l.map f).sum := by
  induction l with
  | nil => simp
  | cons a rest ih =>
    simp only [List.map_cons, List.sum_cons, List.length_cons]
    have h1 := h a (by simp)
    have h2 := ih (fun x hx => h x (by simp [hx]))
    omega

theorem sum_map_sub_one {α : Type} (l : List α) (f : α → Nat)
    (h : ∀ x ∈ l, 1 ≤ f x) :
    (l.map (fun x => f x - 1)).sum = (l.map f).sum - l.length := by
  induction l with
  | nil => rfl
  | cons a rest ih =>
    simp only [List.map_cons, List.sum_cons, List.length_cons]
    rw [ih (fun x hx => h x (by simp [hx]))]
    have h1 := h a (by simp)
    have h2 := length_le_sum_map rest f (fun x hx => h x (by simp [hx]))
    omega

/-- C3: the batch exact-duplicate detection: a row is flagged exactly when
its identity tuple occurs among the earlier rows, so the first occurrence is
never flagged; the flagged rows are exactly the rows emitted to the
duplicate report; and the reported total equals the sum over distinct
identity tuples of their number of occurrences minus one. -/
theorem C3_exact_duplicates :
    (∀ rows (i : Nat), i < rows.length →
      (dupFlags rows).getD i false =
        decide (rowIdentity (rows.getD i default) ∈ (rows.take i).map rowIdentity)) ∧
    (∀ rows, dupRowsOut rows =
      ((rows.zip (dupFlags rows)).filter (fun p => p.2)).map (fun p => p.1)) ∧
    (∀ rows, dupCount rows =
      ((rows.map rowIdentity).dedup.map
        (fun t => @List.count _ instBEqOfDecidableEq t (rows.map rowIdentity) - 1)).sum) := by
  refine ⟨?_, ?_, ?_⟩
  · intro rows i hi
    unfold dupFlags
    rw [batchDupScan_flag [] rows i hi, decide_eq_decide]
    simp
  · intro rows
    unfold dupRowsOut dupFlags
    exact batchDupScan_rows [] rows
  · intro rows
    rw [dupCount_eq]
    rw [sum_map_sub_one _ _ (fun t ht => by
      have hm : t ∈ rows.map rowIdentity := List.mem_dedup.mp ht
      exact (@List.count_pos_iff _ instBEqOfDecidableEq
        (@instLawfulBEq _ _) t (rows.map rowIdentity)).mpr hm)]
    rw [List.sum_map_count_dedup_eq_length, List.length_map]

/-- C3 witness: the flag characterization applied to a concrete two-row
input whose second row repeats the identity tuple of the first. -/
theorem C3_exact_duplicates_witness :
    (dupFlags [⟨chars "A", chars "1", chars "J", chars "e@x.com"⟩,
      ⟨chars "A", chars "1", chars "J", chars " E@X.COM "⟩]).getD 1 false =
      decide (rowIdentity ([⟨chars "A", chars "1", chars "J", chars "e@x.com"⟩,
        ⟨chars "A", chars "1", chars "J", chars " E@X.COM "⟩].getD 1 default) ∈
        (([⟨chars "A", chars "1", chars "J", chars "e@x.com"⟩,
          ⟨chars "A", chars "1", chars "J", chars " E@X.COM "⟩] : List Row).take 1).map
          rowIdentity) :=
  C3_exact_duplicates.1 _ 1 (by decide)

/-- C4: the interactive STATUS_EMAIL is assigned by sequential overrides in
which the last applicable rule wins, so the resulting label is given by the
reversed priority: empty email, then invalid format, then any classification
reason, then repetition count above one, then the clean default. -/
theorem C4_status_override_order :
    ∀ norms e, rowStatus norms e =
      (if e = [] then chars "Sem email"
       else if pyEmailRegexMatch e = false then chars "Invalido"
       else if (classify_email e).isEmpty = false then chars "Suspeito"
       else if 1 < qtdRep norms e then chars "Repetido"
       else chars "Unico limpo") := by
  intro norms e
  by_cases h1 : e = []
  · simp [rowStatus, statusFold, h1]
  · by_cases h2 : pyEmailRegexMatch e = false
    · simp [rowStatus, statusFold, h1, h2]
    · by_cases h3 : (classify_email e).isEmpty = false
      · simp [rowStatus, statusFold, h1, h2, h3]
      · by_cases h4 : 1 < qtdRep norms e
        · simp [rowStatus, statusFold, h1, h2, h3, h4]
        · simp [rowStatus, statusFold, h1, h2, h3, h4]

/-- C10: an empty normalized email has repetition count zero and falls in
the one-occurrence bucket, and repeat_bucket maps every integer to its
labelled range, each value to exactly one of the six buckets. -/
theorem C10_repeat_buckets :
    (∀ norms, qtdRep norms [] = 0) ∧
    (∀ norms, repeat_bucket (qtdRep norms [] : Int) = chars "1 vez") ∧
    (∀ v : Int,
      (v ≤ 1 → repeat_bucket v = chars "1 vez") ∧
      (v = 2 → repeat_bucket v = chars "2 vezes") ∧
      (v = 3 → repeat_bucket v = chars "3 vezes") ∧
      (4 ≤ v ∧ v ≤ 5 → repeat_bucket v = chars "4-5 vezes") ∧
      (6 ≤ v ∧ v ≤ 10 → repeat_bucket v = chars "6-10 vezes") ∧
      (11 ≤ v → repeat_bucket v = chars "11+ vezes")) ∧
    (∀ v : Int, repeat_bucket v ∈ [chars "1 vez", chars "2 vezes", chars "3 vezes",
      chars "4-5 vezes", chars "6-10 vezes", chars "11+ vezes"]) := by
  have hzero : ∀ norms : List (List Char), qtdRep norms [] = 0 := by
    intro norms
    unfold qtdRep
    rw [List.count_eq_zero]
    intro hmem
    rw [List.mem_filter] at hmem
    exact absurd hmem.2 (by simp)
  refine ⟨hzero, ?_, ?_, ?_⟩
  · intro norms
    rw [hzero norms]
    decide
  · intro v
    refine ⟨?_, ?_, ?_, ?_, ?_, ?_⟩
    · intro h
      unfold repeat_bucket
      rw [if_pos h]
    · intro h
      rw [h]
      decide
    · intro h
      rw [h]
      decide
    · intro h
      unfold repeat_bucket
      rw [if_neg (by omega), if_neg (by omega), if_neg (by omega), if_pos (by omega)]
    · intro h
      unfold repeat_bucket
      rw [if_neg (by omega), if_neg (by omega), if_neg (by omega), if_neg (by omega),
        if_pos (by omega)]
    · intro h
      unfold repeat_bucket
      rw [if_neg (by omega), if_neg (by omega), if_neg (by omega), if_neg (by omega),
        if_neg (by omega)]
  · intro v
    unfold repeat_bucket
    split_ifs <;> simp

/-- C10 witness: the bucket characterization applied at the concrete
repetition count seven. -/
theorem C10_repeat_buckets_witness : repeat_bucket 7 = chars "6-10 vezes" :=
  (C10_repeat_buckets.2.2.1 7).2.2.2.2.1 (by constructor <;> decide)

/-- C9 (counterexample): a non-empty CSV whose only line is data, not a
header, is not rejected: the batch run takes that line as the header and
returns a summary, although the claim says a CSV without a header row must
abort. -/
theorem C9_counterexample_headerless_data :
    (analyzeE (some [[chars "joao@x.com", chars "1"]])).isOk = true := rfl

/-- C9 (amended): the batch run aborts with a descriptive error exactly when
the input file is missing or has no records at all (the only case in which
the reader reports no header); any non-empty file is analysed with its first
record taken as the header.  In the interactive variant a read failure is
rendered as a page error message and main returns normally. -/
theorem C9_read_errors :
    (analyzeE none = .error (chars "FileNotFoundError")) ∧
    (analyzeE (some []) = .error (chars "Arquivo CSV sem cabecalho.")) ∧
    (∀ header dataRows, analyzeE (some (header :: dataRows)) =
      .ok (buildSummary (dataRows.map (rowOfRecord header)))) ∧
    (∀ msg, uiAfterRead (.error msg) = .errorShown (chars "Falha ao ler arquivo: " ++ msg)) ∧
    (∀ n, uiAfterRead (.ok n) = .loaded n) :=
  ⟨rfl, rfl, fun _ _ => rfl, fun _ => rfl, fun _ => rfl⟩

/-! Helper lemmas for the column resolver and the state-code extraction. -/

theorem pickBest_some_spec (scored : List (List Char × (Nat × ℕ+))) (k : List Char)
    (hk : pickBest scored = some k) :
    ∃ s, (k, s) ∈ scored ∧ 0 < s.1 ∧ ∀ p ∈ scored, fracLe p.2 s := by
  unfold pickBest at hk
  cases hh : (sortDesc leScore scored).head? with
  | none => rw [hh] at hk; exact absurd hk (by simp)
  | some p =>
    rw [hh] at hk
    have hk2 : (if 0 < p.2.1 then some p.1 else none) = some k := hk
    by_cases hs : 0 < p.2.1
    · rw [if_pos hs] at hk2
      have hkp : p.1 = k := Option.some_inj.mp hk2
      have hmem : p ∈ sortDesc leScore scored := by
        cases hsort : sortDesc leScore scored with
        | nil => rw [hsort] at hh; exact absurd hh (by simp)
        | cons q rest =>
          rw [hsort] at hh
          simp only [List.head?] at hh
          exact List.mem_cons.mpr (Or.inl (Option.some_inj.mp hh).symm)
      refine ⟨p.2, ?_, hs, ?_⟩
      · rw [← hkp]
        exact Prod.mk.eta ▸ (mem_sortDesc _ _ _).mp hmem
      · intro q hq
        exact of_decide_eq_true
          (sortDesc_head_le leScore leScore_trans leScore_total scored p hh q hq)
    · rw [if_neg hs] at hk2
      exact absurd hk2 (by simp)

theorem pickBest_none_spec (scored : List (List Char × (Nat × ℕ+)))
    (hn : pickBest scored = none) : ∀ p ∈ scored, p.2.1 = 0 := by
  intro p hp
  unfold pickBest at hn
  cases hh : (sortDesc leScore scored).head? with
  | none =>
    have hempty : sortDesc leScore scored = [] := List.head?_eq_none_iff.mp hh
    have : p ∈ sortDesc leScore scored := (mem_sortDesc _ _ _).mpr hp
    rw [hempty] at this
    exact absurd this (by simp)
  | some q =>
    rw [hh] at hn
    have hn2 : (if 0 < q.2.1 then some q.1 else none) = (none : Option (List Char)) := hn
    by_cases hs : 0 < q.2.1
    · rw [if_pos hs] at hn2
      exact absurd hn2 (by simp)
    · have hle : fracLe p.2 q.2 := of_decide_eq_true
        (sortDesc_head_le leScore leScore_trans leScore_total scored q hh p hp)
      unfold fracLe at hle
      have hq0 : q.2.1 = 0 := by omega
      rw [hq0] at hle
      have hqd : 0 < (q.2.2 : Nat) := q.2.2.property
      have h0 : p.2.1 * (q.2.2 : Nat) = 0 := by omega
      rcases Nat.mul_eq_zero.mp h0 with h | h
      · exact h
      · omega

/-- C5 (counterexample): a column already alias-matched to the email role is
selected again, by content scoring, for the still-unresolved document role:
its single value contains eleven digits, so the document heuristic scores the
email column positively and picks it. -/
theorem C5_counterexample_scored_column_already_matched :
    guessByAlias [(chars "email", [chars "12345678901@a.com"])] Role.email =
      some (chars "email") ∧
    guessByAlias [(chars "email", [chars "12345678901@a.com"])] Role.document = none ∧
    (guess_columns [(chars "email", [chars "12345678901@a.com"])]).document =
      some (chars "email") ∧
    (guess_columns [(chars "email", [chars "12345678901@a.com"])]).email =
      some (chars "email") :=
  ⟨by decide, by decide, by decide, by decide⟩

/-- C5 (amended): when the positional fallback does not apply, each role
among email, document and name left unresolved by the alias pass is filled
by scoring all columns (including columns already matched to another role):
the chosen column is a maximal-scoring one and is chosen exactly when the
maximal score is positive. -/
theorem C5_content_scoring (cols : List Col)
    (hpos : ¬(5 ≤ cols.length ∧ guessByAlias cols .source = none ∧
      guessByAlias cols .document = none ∧ guessByAlias cols .nameRole = none ∧
      guessByAlias cols .email = none ∧ guessByAlias cols .region = none)) :
    (guessByAlias cols .email = none →
      (guess_columns cols).email =
        pickBest (cols.map (fun c => (c.1, score_email_column c.2)))) ∧
    (guessByAlias cols .document = none →
      (guess_columns cols).document =
        pickBest (cols.map (fun c => (c.1, score_document_column c.2)))) ∧
    (guessByAlias cols .nameRole = none →
      (guess_columns cols).nameField =
        pickBest (cols.map (fun c => (c.1, score_name_column c.2)))) ∧
    (∀ scored k, pickBest scored = some k →
      ∃ s, (k, s) ∈ scored ∧ 0 < s.1 ∧ ∀ p ∈ scored, fracLe p.2 s) ∧
    (∀ scored, pickBest scored = none → ∀ p ∈ scored, p.2.1 = 0) := by
  refine ⟨?_, ?_, ?_, pickBest_some_spec, pickBest_none_spec⟩
  · intro h
    unfold guess_columns
    rw [if_neg hpos]
    simp only [h]
  · intro h
    unfold guess_columns
    rw [if_neg hpos]
    simp only [h]
  · intro h
    unfold guess_columns
    rw [if_neg hpos]
    simp only [h]

/-- C5 witness: the amended scoring rule applied to the concrete one-column
table of the counterexample. -/
theorem C5_content_scoring_witness :
    (guess_columns [(chars "email", [chars "12345678901@a.com"])]).document =
      pickBest ([((chars "email" : List Char), [chars "12345678901@a.com"])].map
        (fun c => (c.1, score_document_column c.2))) :=
  (C5_content_scoring [(chars "email", [chars "12345678901@a.com"])]
    (fun h => absurd h.1 (by decide))).2.1 (by decide)

theorem mem_of_getLast? {α : Type} (l : List α) (a : α) (h : l.getLast? = some a) :
    a ∈ l := by
  induction l with
  | nil => simp at h
  | cons x xs ih =>
    cases xs with
    | nil =>
      simp only [List.getLast?_singleton] at h
      simp [Option.some_inj.mp h]
    | cons y ys =>
      rw [List.getLast?_cons_cons] at h
      exact List.mem_cons.mpr (Or.inr (ih h))

theorem ufTail_valid (n : List Char) : ufTail n = [] ∨ ufTail n ∈ brazilUFs := by
  unfold ufTail
  split
  · rename_i c heq
    by_cases hc : c ∈ brazilUFs
    · rw [if_pos hc]
      right
      exact hc
    · rw [if_neg hc]
      split
      · rename_i t ht
        right
        exact of_decide_eq_true (List.mem_filter.mp (mem_of_getLast? _ _ ht)).2
      · left
        rfl
  · split
    · rename_i t ht
      right
      exact of_decide_eq_true (List.mem_filter.mp (mem_of_getLast? _ _ ht)).2
    · left
      rfl

/-- C7 (counterexample): an invalid two-letter code right after the slash
does not force the empty result: the extraction falls through to the
end-of-string rule and returns the valid code there, while the claimed
choose-then-validate reading yields the empty string. -/
theorem C7_counterexample_slash_fallthrough :
    extract_brazil_uf (chars "CIDADE/QQ RJ") = chars "RJ" ∧
    specChooseUf (chars "CIDADE/QQ RJ") = [] := ⟨by decide, by decide⟩

/-- C7 (amended): state-code extraction upper-cases and de-accents the
region text and tries three rules in order, code after the last slash, code
at the end of the string, last valid standalone token, accepting a rule's
candidate only when it is one of the 27 state codes and otherwise falling
through to the next rule; the result is always empty or a valid state code,
and the scenario inputs behave as specified. -/
theorem C7_uf_extraction :
    (∀ cs, extract_brazil_uf cs = [] ∨ extract_brazil_uf cs ∈ brazilUFs) ∧
    extract_brazil_uf (chars "Sao Paulo/SP") = chars "SP" ∧
    extract_brazil_uf (chars "regiao desconhecida") = [] ∧
    extract_brazil_uf (chars "CIDADE/QQ RJ") = chars "RJ" ∧
    extract_brazil_uf (chars "A/SP B/RJ") = chars "RJ" ∧
    extract_brazil_uf (chars "SP X RJ Y") = chars "RJ" := by
  refine ⟨?_, by decide, by decide, by decide, by decide, by decide⟩
  intro cs
  unfold extract_brazil_uf
  dsimp only
  split
  · left; rfl
  · split
    · rename_i c heq
      by_cases hc : c ∈ brazilUFs
      · rw [if_pos hc]
        right
        exact hc
      · rw [if_neg hc]
        exact ufTail_valid _
    · exact ufTail_valid _
